import Mathlib

/-!
Verification of the requirements-quality scoring engine in `src/req_matrix.py`.

Python strings are modelled as `List Char`; `str.strip` as `pyStrip`
(removing the ASCII whitespace characters Python strips), `str.split("\n")`
as `splitOnNl`, `str.startswith` as `startsWithL`, `str.replace(pat, "")`
as `replaceAll` (left-to-right removal of every non-overlapping occurrence,
implemented with a fuel argument so that it is structurally recursive and
kernel-computable), the `in` containment test as `containsSub`, and
`str.lower` as a character-wise `Char.toLower` (all vocabulary entries are
ASCII).  The float `percentage` of `evaluate_correctness` is modelled as an
exact rational.  The pandas `DataFrame` of `generate_validation_matrix` is
modelled as a fixed record of its three columns.
-/

/-- The whitespace characters removed by Python `str.strip()` (ASCII range;
`Char.ofNat 11` and `Char.ofNat 12` are vertical tab and form feed). -/
def isPyWs (c : Char) : Bool :=
  c = ' ' || c = '\t' || c = '\n' || c = '\r' || c = Char.ofNat 11 || c = Char.ofNat 12

/-- Python `str.lstrip()`. -/
def lstrip (s : List Char) : List Char := s.dropWhile isPyWs

/-- Python `str.rstrip()`, written front-recursively so it is structural:
a character is kept iff a non-whitespace character survives after it, or it
is itself non-whitespace. -/
def rstripF : List Char → List Char
  | [] => []
  | c :: rest =>
    if rstripF rest = [] then (if isPyWs c then [] else [c])
    else c :: rstripF rest

/-- Python `str.strip()`. -/
def pyStrip (s : List Char) : List Char := rstripF (lstrip s)

/-- Python `str.split("\n")`: always returns at least one piece, pieces
contain no newline. -/
def splitOnNl : List Char → List (List Char)
  | [] => [[]]
  | c :: rest =>
    if c = '\n' then [] :: splitOnNl rest
    else (c :: (splitOnNl rest).headI) :: (splitOnNl rest).tail

/-- Python `s.startswith(pat)`: `startsWithL pat s`. -/
def startsWithL : List Char → List Char → Bool
  | [], _ => true
  | _ :: _, [] => false
  | p :: ps, c :: cs => p == c && startsWithL ps cs

/-- Python `pat in s`: `containsSub pat s`. -/
def containsSub (pat : List Char) : List Char → Bool
  | [] => pat.isEmpty
  | c :: rest => startsWithL pat (c :: rest) || containsSub pat rest

/-- Fuelled worker for `replaceAll`; with fuel at least the length of the
string it performs Python's `str.replace(pat, "")` scan. -/
def replaceAllFuel (pat : List Char) : Nat → List Char → List Char
  | _, [] => []
  | 0, s => s
  | fuel + 1, c :: rest =>
    if startsWithL pat (c :: rest) then
      replaceAllFuel pat fuel ((c :: rest).drop pat.length)
    else
      c :: replaceAllFuel pat fuel rest

/-- Python `s.replace(pat, "")` for a non-empty pattern: remove every
non-overlapping occurrence, scanning left to right. -/
def replaceAll (pat s : List Char) : List Char := replaceAllFuel pat s.length s

/-- The literal `"[Functional]"` tag of the parser. -/
def funcLabel : List Char :=
  ['[', 'F', 'u', 'n', 'c', 't', 'i', 'o', 'n', 'a', 'l', ']']

/-- The literal `"[Non-Functional]"` tag of the parser. -/
def nonFuncLabel : List Char :=
  ['[', 'N', 'o', 'n', '-', 'F', 'u', 'n', 'c', 't', 'i', 'o', 'n', 'a', 'l', ']']

/-- The loop body of `parse_requirements` over the list of raw lines: strip
the line, test the two label prefixes in order, and on a match append the
line with every occurrence of the label removed (Python `str.replace`) and
stripped again. -/
def parseLines : List (List Char) → List (List Char) × List (List Char)
  | [] => ([], [])
  | line :: rest =>
    let l := pyStrip line
    let p := parseLines rest
    if startsWithL funcLabel l then (pyStrip (replaceAll funcLabel l) :: p.1, p.2)
    else if startsWithL nonFuncLabel l then (p.1, pyStrip (replaceAll nonFuncLabel l) :: p.2)
    else p

/-- `parse_requirements` of `src/req_matrix.py`: strip the raw text, split
on newlines, and bucket the labelled lines. -/
def parse_requirements (raw : List Char) : List (List Char) × List (List Char) :=
  parseLines (splitOnNl (pyStrip raw))

/-- Python `str.lower()`, character-wise (the vocabularies are ASCII). -/
def toLowerPy (s : List Char) : List Char := s.map Char.toLower

/-- The `AMBIGUOUS_WORDS` vocabulary of `src/req_matrix.py`. -/
def AMBIGUOUS_WORDS : List (List Char) :=
  (["fast", "quick", "efficient", "user-friendly",
    "etc", "and so on", "appropriate", "suitable",
    "robust", "secure", "easy", "optimize",
    "low latency", "large number", "reliable",
    "consistent", "scalable"]).map String.data

/-- The `ACTION_VERBS` vocabulary of `src/req_matrix.py`. -/
def ACTION_VERBS : List (List Char) :=
  (["shall", "must", "should", "will", "allow",
    "provide", "generate", "store", "process",
    "validate", "send", "receive", "display",
    "ensure", "support"]).map String.data

/-- `contains_action`: some action verb occurs as a substring of the
lower-cased statement. -/
def contains_action (req : List Char) : Bool :=
  ACTION_VERBS.any (fun verb => containsSub verb (toLowerPy req))

/-- `contains_ambiguity`: some ambiguous word occurs as a substring of the
lower-cased statement. -/
def contains_ambiguity (req : List Char) : Bool :=
  AMBIGUOUS_WORDS.any (fun word => containsSub word (toLowerPy req))

/-- `contains_measurable_value`: the regex
`\d+|\%|seconds|ms|users|transactions|requests` searched in the lower-cased
statement, i.e. a digit, a percent sign, or one of the five literal
substrings. -/
def contains_measurable_value (req : List Char) : Bool :=
  let l := toLowerPy req
  l.any Char.isDigit || containsSub "%".data l || containsSub "seconds".data l ||
    containsSub "ms".data l || containsSub "users".data l ||
    containsSub "transactions".data l || containsSub "requests".data l

/-- Python `len(s.split())`: the number of maximal whitespace-free runs. -/
def wcAux : Bool → List Char → Nat
  | _, [] => 0
  | inWord, c :: rest =>
    if isPyWs c then wcAux false rest
    else (if inWord then 0 else 1) + wcAux true rest

/-- Word count of a statement, as `len(req.split())`. -/
def wordCount (s : List Char) : Nat := wcAux false s

/-- The `missing` counter accumulated by the loop of
`evaluate_completeness`. -/
def countMissing : List (List Char) → Bool → Nat
  | [], _ => 0
  | req :: rest, is_nfr =>
    (if contains_action req then 0 else 1) +
      (if is_nfr && !contains_measurable_value req then 1 else 0) +
      countMissing rest is_nfr

/-- `evaluate_completeness` of `src/req_matrix.py`; the local `missing` is
the named definition `countMissing`. -/
def evaluate_completeness (requirements : List (List Char)) (is_nfr : Bool) : String :=
  if countMissing requirements is_nfr > 3 then "Poor"
  else if 2 ≤ countMissing requirements is_nfr ∧ countMissing requirements is_nfr ≤ 3 then "Fair"
  else if countMissing requirements is_nfr = 1 then "Sufficient"
  else if countMissing requirements is_nfr = 0 then "Good"
  else "Excellent"

/-- The local `percentage` of `evaluate_correctness`:
`(incorrect / len(requirements)) * 100` with
`incorrect = sum(1 for r in requirements if contains_ambiguity(r))`,
modelled as an exact rational. -/
def percentageOf (requirements : List (List Char)) : ℚ :=
  ((requirements.countP contains_ambiguity : ℚ) / (requirements.length : ℚ)) * 100

/-- `evaluate_correctness` of `src/req_matrix.py`; the float division is
modelled as exact rational arithmetic. -/
def evaluate_correctness (requirements : List (List Char)) : String :=
  if requirements.length = 0 then "Poor"
  else if percentageOf requirements > 50 then "Poor"
  else if 30 ≤ percentageOf requirements ∧ percentageOf requirements ≤ 50 then "Fair"
  else if 10 ≤ percentageOf requirements ∧ percentageOf requirements < 30 then "Sufficient"
  else if percentageOf requirements < 10 ∧ percentageOf requirements > 0 then "Good"
  else "Excellent"

/-- The `unclear` counter accumulated by the loop of `evaluate_clarity`. -/
def countUnclear : List (List Char) → Nat
  | [] => 0
  | req :: rest =>
    (if wordCount req < 6 ∨ contains_ambiguity req = true then 1 else 0) + countUnclear rest

/-- `evaluate_clarity` of `src/req_matrix.py`; the local `unclear` is the
named definition `countUnclear`. -/
def evaluate_clarity (requirements : List (List Char)) : String :=
  if countUnclear requirements > 3 then "Poor"
  else if 2 ≤ countUnclear requirements ∧ countUnclear requirements ≤ 3 then "Fair"
  else if countUnclear requirements = 1 then "Sufficient"
  else if countUnclear requirements = 0 then "Good"
  else "Excellent"

/-- The result table of `generate_validation_matrix`, modelled as a record
of its `Criteria`, `Functional Requirements` and `Non-Functional
Requirements` columns. -/
structure ValidationMatrix where
  criteria : List String
  functionalCol : List String
  nonFunctionalCol : List String

/-- `generate_validation_matrix` of `src/req_matrix.py`. -/
def generate_validation_matrix (raw : List Char) : ValidationMatrix :=
  let p := parse_requirements raw
  { criteria := ["Completeness", "Correctness", "Clarity"]
    functionalCol :=
      [evaluate_completeness p.1 false, evaluate_correctness p.1, evaluate_clarity p.1]
    nonFunctionalCol :=
      [evaluate_completeness p.2 true, evaluate_correctness p.2, evaluate_clarity p.2] }

/-- The fixed verdict vocabulary. -/
def verdicts : List String := ["Poor", "Fair", "Sufficient", "Good", "Excellent"]

/-- Written from the words of the claim for `evaluate_correctness`:
`p = 100 * incorrect / totalCount`. -/
def correctnessPct (requirements : List (List Char)) : ℚ :=
  100 * (requirements.countP contains_ambiguity : ℚ) / (requirements.length : ℚ)

/-- Written from the words of the claim for `evaluate_correctness`: `Poor`
on an empty bucket, otherwise the interval map
`p>50 → Poor, 30≤p≤50 → Fair, 10≤p<30 → Sufficient, 0<p<10 → Good,
p=0 → Excellent`. -/
def correctnessSpec (requirements : List (List Char)) : String :=
  if requirements.length = 0 then "Poor"
  else if correctnessPct requirements > 50 then "Poor"
  else if 30 ≤ correctnessPct requirements ∧ correctnessPct requirements ≤ 50 then "Fair"
  else if 10 ≤ correctnessPct requirements ∧ correctnessPct requirements < 30 then "Sufficient"
  else if correctnessPct requirements < 10 ∧ correctnessPct requirements > 0 then "Good"
  else "Excellent"

/-- Written from the words of the claim for `evaluate_completeness`: the
`missing` total as a sum over statements of `(1 if hasAction is false)` plus
`(1 more if isNFR is true and hasMeasurable is false)`. -/
def missingSpec (requirements : List (List Char)) (is_nfr : Bool) : Nat :=
  (requirements.map (fun req =>
    (if contains_action req = false then 1 else 0) +
      (if is_nfr = true ∧ contains_measurable_value req = false then 1 else 0))).sum

/-- Written from the words of the claim for `evaluate_completeness`: the
threshold map `missing>3 → Poor, 2≤missing≤3 → Fair, missing=1 → Sufficient,
missing=0 → Good` (no `Excellent`). -/
def completenessSpec (requirements : List (List Char)) (is_nfr : Bool) : String :=
  if 3 < missingSpec requirements is_nfr then "Poor"
  else if 2 ≤ missingSpec requirements is_nfr ∧ missingSpec requirements is_nfr ≤ 3 then "Fair"
  else if missingSpec requirements is_nfr = 1 then "Sufficient"
  else "Good"

/-- Append lines back together with newlines (the inverse of `splitOnNl` on
newline-free lines). -/
def joinNl : List (List Char) → List Char
  | [] => []
  | [l] => l
  | l :: rest => l ++ '\n' :: joinNl rest

/-- Re-label an extracted functional statement with its original tag. -/
def relabelF (s : List Char) : List Char := funcLabel ++ ' ' :: s

/-- Re-label an extracted non-functional statement with its original tag. -/
def relabelN (s : List Char) : List Char := nonFuncLabel ++ ' ' :: s

/-- The round-trip text: every extracted statement re-labelled with its
original tag, functional lines first, joined by newlines. -/
def roundTripInput (f n : List (List Char)) : List Char :=
  joinNl (f.map relabelF ++ n.map relabelN)

/-- The trimmed lines of the input text, as the parser's loop sees them. -/
def trimmedLines (raw : List Char) : List (List Char) :=
  (splitOnNl (pyStrip raw)).map pyStrip

/-- The trimmed lines that carry the `[Functional]` tag. -/
def funcLabeledLines (raw : List Char) : List (List Char) :=
  (trimmedLines raw).filter (fun l => startsWithL funcLabel l)

/-- The trimmed lines that carry the `[Non-Functional]` tag. -/
def nonFuncLabeledLines (raw : List Char) : List (List Char) :=
  (trimmedLines raw).filter (fun l => startsWithL nonFuncLabel l)

/-- Replace the last line of a split by itself with a suffix appended (the
effect on `splitOnNl` of appending a non-newline character). -/
def appendLast (suf : List Char) : List (List Char) → List (List Char)
  | [] => [suf]
  | l :: rest => if rest = [] then [l ++ suf] else l :: appendLast suf rest

/-! ### Theorems -/

theorem startsWithL_iff (p s : List Char) :
    startsWithL p s = true ↔ ∃ t, s = p ++ t := by
  induction p generalizing s with
  | nil => simp [startsWithL]
  | cons a ps ih =>
    cases s with
    | nil => simp [startsWithL]
    | cons c cs =>
      simp only [startsWithL, Bool.and_eq_true, beq_iff_eq, ih, List.cons_append]
      constructor
      · rintro ⟨rfl, t, rfl⟩
        exact ⟨t, rfl⟩
      · rintro ⟨t, h⟩
        injection h with h1 h2
        exact ⟨h1.symm, t, h2⟩

theorem startsWithL_append_self (p t : List Char) : startsWithL p (p ++ t) = true :=
  (startsWithL_iff p (p ++ t)).mpr ⟨t, rfl⟩

theorem not_nonFunc_of_func (l : List Char) (h : startsWithL funcLabel l = true) :
    startsWithL nonFuncLabel l = false := by
  obtain ⟨t, rfl⟩ := (startsWithL_iff _ _).mp h
  rfl

theorem not_func_of_nonFunc (l : List Char) (h : startsWithL nonFuncLabel l = true) :
    startsWithL funcLabel l = false := by
  obtain ⟨t, rfl⟩ := (startsWithL_iff _ _).mp h
  rfl

theorem containsSub_iff (p s : List Char) :
    containsSub p s = true ↔ ∃ a b, s = a ++ p ++ b := by
  induction s with
  | nil =>
    constructor
    · intro h
      have hp : p = [] := by simpa [containsSub, List.isEmpty_iff] using h
      exact ⟨[], [], by simp [hp]⟩
    · rintro ⟨a, b, h⟩
      cases a with
      | cons c t => simp at h
      | nil =>
        cases p with
        | cons c t => simp at h
        | nil => simp [containsSub]
  | cons c rest ih =>
    simp only [containsSub, Bool.or_eq_true, ih, startsWithL_iff]
    constructor
    · rintro (⟨t, ht⟩ | ⟨a, b, hr⟩)
      · exact ⟨[], t, by simp [ht]⟩
      · exact ⟨c :: a, b, by simp [hr]⟩
    · rintro ⟨a, b, h⟩
      cases a with
      | nil =>
        left
        exact ⟨b, by simpa using h⟩
      | cons d t =>
        right
        rw [List.cons_append, List.cons_append] at h
        injection h with h1 h2
        exact ⟨t, b, h2⟩

theorem containsSub_trans (p q s : List Char) (hpq : containsSub p q = true)
    (hqs : containsSub q s = true) : containsSub p s = true := by
  obtain ⟨a, b, rfl⟩ := (containsSub_iff _ _).mp hpq
  obtain ⟨x, y, rfl⟩ := (containsSub_iff _ _).mp hqs
  exact (containsSub_iff _ _).mpr ⟨x ++ a, b ++ y, by simp⟩

theorem containsSub_map (f : Char → Char) (p s : List Char)
    (h : containsSub p s = true) : containsSub (p.map f) (s.map f) = true := by
  obtain ⟨a, b, rfl⟩ := (containsSub_iff _ _).mp h
  exact (containsSub_iff _ _).mpr ⟨a.map f, b.map f, by simp⟩

theorem containsSub_nil_pat (s : List Char) : containsSub [] s = true := by
  cases s <;> simp [containsSub, startsWithL]

theorem replaceAllFuel_congr (pat : List Char) (hp : 0 < pat.length) :
    ∀ f1 f2 s, s.length ≤ f1 → s.length ≤ f2 →
      replaceAllFuel pat f1 s = replaceAllFuel pat f2 s := by
  intro f1
  induction f1 with
  | zero =>
    intro f2 s h1 h2
    have hs : s = [] := List.eq_nil_of_length_eq_zero (Nat.le_zero.mp h1)
    subst hs
    cases f2 <;> rfl
  | succ f ih =>
    intro f2 s h1 h2
    cases s with
    | nil => cases f2 <;> rfl
    | cons c rest =>
      cases f2 with
      | zero => simp at h2
      | succ g =>
        simp only [replaceAllFuel]
        by_cases hs : startsWithL pat (c :: rest) = true
        · rw [if_pos hs, if_pos hs]
          apply ih
          · rw [List.length_drop]
            simp only [List.length_cons] at h1 ⊢
            omega
          · rw [List.length_drop]
            simp only [List.length_cons] at h2 ⊢
            omega
        · rw [if_neg hs, if_neg hs]
          have := ih g rest (by simpa using Nat.le_of_succ_le_succ h1)
            (Nat.le_of_succ_le_succ h2)
          rw [this]

theorem replaceAll_cons (pat : List Char) (hp : 0 < pat.length) (c : Char)
    (rest : List Char) :
    replaceAll pat (c :: rest) =
      if startsWithL pat (c :: rest) = true then replaceAll pat ((c :: rest).drop pat.length)
      else c :: replaceAll pat rest := by
  show replaceAllFuel pat (c :: rest).length (c :: rest) = _
  rw [List.length_cons, replaceAllFuel]
  by_cases hs : startsWithL pat (c :: rest) = true
  · rw [if_pos hs, if_pos hs]
    apply replaceAllFuel_congr pat hp
    · rw [List.length_drop]
      simp only [List.length_cons]
      omega
    · exact Nat.le_refl _
  · rw [if_neg hs, if_neg hs]
    rfl

theorem replaceAll_not_contains (pat : List Char) (hp : 0 < pat.length) :
    ∀ s, containsSub pat s = false → replaceAll pat s = s := by
  intro s
  induction s with
  | nil => intro _; rfl
  | cons c rest ih =>
    intro h
    rw [containsSub] at h
    have h1 : startsWithL pat (c :: rest) = false := by
      cases hst : startsWithL pat (c :: rest)
      · rfl
      · rw [hst] at h; simp at h
    have h2 : containsSub pat rest = false := by
      rw [h1] at h; simpa using h
    rw [replaceAll_cons pat hp, if_neg (by simp [h1]), ih h2]

theorem replaceAll_prepend (pat : List Char) (hp : 0 < pat.length) (t : List Char) :
    replaceAll pat (pat ++ t) = replaceAll pat t := by
  cases hpat : pat with
  | nil => rw [hpat] at hp; simp at hp
  | cons a ps =>
    rw [← hpat]
    have hne : pat ++ t = a :: (ps ++ t) := by rw [hpat]; rfl
    rw [hne, replaceAll_cons pat hp,
      if_pos (by rw [← hne]; exact startsWithL_append_self pat t)]
    rw [show a :: (ps ++ t) = pat ++ t by rw [hne], List.drop_left]

theorem replaceAll_self (pat : List Char) (hp : 0 < pat.length) :
    replaceAll pat pat = [] := by
  have := replaceAll_prepend pat hp []
  rw [List.append_nil] at this
  rw [this]
  rfl

theorem mem_of_mem_replaceAllFuel (pat : List Char) (c : Char) :
    ∀ fuel s, c ∈ replaceAllFuel pat fuel s → c ∈ s := by
  intro fuel
  induction fuel with
  | zero =>
    intro s h
    cases s with
    | nil => simpa [replaceAllFuel] using h
    | cons d r => simpa [replaceAllFuel] using h
  | succ f ih =>
    intro s h
    cases s with
    | nil => simpa [replaceAllFuel] using h
    | cons d r =>
      rw [replaceAllFuel] at h
      by_cases hs : startsWithL pat (d :: r) = true
      · rw [if_pos hs] at h
        exact List.mem_of_mem_drop (ih _ h)
      · rw [if_neg hs] at h
        rcases List.mem_cons.mp h with h1 | h1
        · exact List.mem_cons.mpr (Or.inl h1)
        · exact List.mem_cons.mpr (Or.inr (ih _ h1))

theorem mem_of_mem_replaceAll (pat s : List Char) (c : Char)
    (h : c ∈ replaceAll pat s) : c ∈ s :=
  mem_of_mem_replaceAllFuel pat c s.length s h

theorem lstrip_cons_of_ws (c : Char) (s : List Char) (h : isPyWs c = true) :
    lstrip (c :: s) = lstrip s := by
  simp [lstrip, List.dropWhile_cons, h]

theorem lstrip_cons_of_not_ws (c : Char) (s : List Char) (h : isPyWs c = false) :
    lstrip (c :: s) = c :: s := by
  simp [lstrip, List.dropWhile_cons, h]

theorem rstripF_eq_nil_all_ws : ∀ s, rstripF s = [] → ∀ c ∈ s, isPyWs c = true := by
  intro s
  induction s with
  | nil =>
    intro _ c hc
    simp at hc
  | cons d t ih =>
    intro h c hc
    rw [rstripF] at h
    by_cases ht : rstripF t = []
    · rw [if_pos ht] at h
      rcases List.mem_cons.mp hc with hcd | hct
      · subst hcd
        cases hw : isPyWs c
        · rw [hw] at h
          simp at h
        · rfl
      · exact ih ht c hct
    · rw [if_neg ht] at h
      simp at h

theorem rstripF_append_gen (a b : List Char) :
    rstripF (a ++ b) = if rstripF b = [] then rstripF a else a ++ rstripF b := by
  induction a with
  | nil =>
    by_cases hb : rstripF b = []
    · rw [List.nil_append, if_pos hb, hb]
      rfl
    · rw [List.nil_append, if_neg hb, List.nil_append]
  | cons d t ih =>
    by_cases hb : rstripF b = []
    · rw [if_pos hb, List.cons_append, rstripF, ih, if_pos hb, rstripF]
    · rw [if_neg hb, List.cons_append, rstripF, ih, if_neg hb,
        if_neg (show ¬(t ++ rstripF b = []) by simp [hb]), List.cons_append]

theorem lstrip_length_le (s : List Char) : (lstrip s).length ≤ s.length := by
  induction s with
  | nil => simp [lstrip]
  | cons c t ih =>
    cases h : isPyWs c
    · rw [lstrip_cons_of_not_ws c t h]
    · rw [lstrip_cons_of_ws c t h]
      simp only [List.length_cons]
      omega

theorem rstripF_length_le (s : List Char) : (rstripF s).length ≤ s.length := by
  induction s with
  | nil => simp [rstripF]
  | cons c t ih =>
    rw [rstripF]
    by_cases ht : rstripF t = []
    · rw [if_pos ht]
      split_ifs <;> simp <;> omega
    · rw [if_neg ht]
      simp only [List.length_cons]
      omega

theorem lstrip_eq_self_of_length (s : List Char) (h : (lstrip s).length = s.length) :
    lstrip s = s := by
  induction s with
  | nil => rfl
  | cons c t ih =>
    cases hw : isPyWs c
    · exact lstrip_cons_of_not_ws c t hw
    · rw [lstrip_cons_of_ws c t hw] at h
      have := lstrip_length_le t
      simp only [List.length_cons] at h
      exact absurd h (by omega)

theorem rstripF_eq_self_of_length (s : List Char) :
    (rstripF s).length = s.length → rstripF s = s := by
  induction s with
  | nil =>
    intro _
    rfl
  | cons c t ih =>
    intro h
    rw [rstripF] at h ⊢
    by_cases ht : rstripF t = []
    · rw [if_pos ht] at h ⊢
      cases hw : isPyWs c
      · rw [hw] at h
        rw [if_neg (show ¬(false = true) by simp)] at h ⊢
        simp at h
        rw [h]
      · rw [hw] at h
        rw [if_pos rfl] at h
        simp at h
    · rw [if_neg ht] at h ⊢
      simp only [List.length_cons] at h
      rw [ih (by omega)]

theorem pyStrip_eq_self_parts (s : List Char) (h : pyStrip s = s) :
    lstrip s = s ∧ rstripF s = s := by
  have h1 : rstripF (lstrip s) = s := h
  have h2 := congrArg List.length h1
  have h3 := rstripF_length_le (lstrip s)
  have h4 := lstrip_length_le s
  have h5 : lstrip s = s := lstrip_eq_self_of_length s (by omega)
  rw [h5] at h1
  exact ⟨h5, h1⟩

theorem lstrip_head_not_ws (s : List Char) : ∀ c t, lstrip s = c :: t → isPyWs c = false := by
  induction s with
  | nil =>
    intro c t h
    simp [lstrip] at h
  | cons d r ih =>
    intro c t h
    cases hw : isPyWs d
    · rw [lstrip_cons_of_not_ws d r hw] at h
      injection h with h1 _
      rw [← h1]
      exact hw
    · rw [lstrip_cons_of_ws d r hw] at h
      exact ih c t h

theorem lstrip_idem (s : List Char) : lstrip (lstrip s) = lstrip s := by
  cases hl : lstrip s with
  | nil => rfl
  | cons c t => exact lstrip_cons_of_not_ws c t (lstrip_head_not_ws s c t hl)

theorem rstripF_singleton_not_ws (c : Char) (hc : isPyWs c = false) :
    rstripF [c] = [c] := by
  rw [rstripF, if_pos (show rstripF [] = [] from rfl),
    if_neg (show ¬(isPyWs c = true) by simp [hc])]

theorem rstripF_idem (s : List Char) : rstripF (rstripF s) = rstripF s := by
  induction s with
  | nil => rfl
  | cons c t ih =>
    rw [rstripF]
    by_cases ht : rstripF t = []
    · rw [if_pos ht]
      cases hw : isPyWs c
      · rw [if_neg (show ¬(false = true) by simp)]
        exact rstripF_singleton_not_ws c hw
      · rw [if_pos rfl]
        rfl
    · rw [if_neg ht, rstripF, ih, if_neg ht]

theorem pyStrip_idem (s : List Char) : pyStrip (pyStrip s) = pyStrip s := by
  rw [pyStrip, pyStrip]
  cases hl : lstrip s with
  | nil => rfl
  | cons c t =>
    have hc : isPyWs c = false := lstrip_head_not_ws s c t hl
    rw [rstripF]
    by_cases ht : rstripF t = []
    · rw [if_pos ht,
        if_neg (show ¬(isPyWs c = true) by simp [hc]),
        lstrip_cons_of_not_ws c [] hc, rstripF_singleton_not_ws c hc]
    · rw [if_neg ht, lstrip_cons_of_not_ws c (rstripF t) hc, rstripF, rstripF_idem,
        if_neg ht]

theorem pyStrip_cons_ws (c : Char) (s : List Char) (h : isPyWs c = true) :
    pyStrip (c :: s) = pyStrip s := by
  rw [pyStrip, pyStrip, lstrip_cons_of_ws c s h]

theorem pyStrip_append_ws (c : Char) (s : List Char) (h : isPyWs c = true) :
    pyStrip (s ++ [c]) = pyStrip s := by
  rw [pyStrip, pyStrip, lstrip, lstrip, List.dropWhile_append]
  by_cases he : (List.dropWhile isPyWs s).isEmpty = true
  · rw [if_pos he]
    have h1 : List.dropWhile isPyWs [c] = [] := by simp [List.dropWhile_cons, h]
    rw [h1, List.isEmpty_iff.mp he]
  · rw [if_neg he, rstripF_append_gen]
    have h2 : rstripF [c] = [] := by
      rw [rstripF, if_pos (show rstripF [] = [] from rfl), if_pos h]
    rw [h2, if_pos rfl]

theorem mem_lstrip (c : Char) : ∀ s, c ∈ lstrip s → c ∈ s := by
  intro s
  induction s with
  | nil =>
    intro h
    simpa [lstrip] using h
  | cons d t ih =>
    intro h
    cases hw : isPyWs d
    · rw [lstrip_cons_of_not_ws d t hw] at h
      exact h
    · rw [lstrip_cons_of_ws d t hw] at h
      exact List.mem_cons.mpr (Or.inr (ih h))

theorem mem_rstripF (c : Char) : ∀ s, c ∈ rstripF s → c ∈ s := by
  intro s
  induction s with
  | nil =>
    intro h
    simpa [rstripF] using h
  | cons d t ih =>
    intro h
    rw [rstripF] at h
    by_cases ht : rstripF t = []
    · rw [if_pos ht] at h
      by_cases hw : isPyWs d = true
      · rw [if_pos hw] at h
        simp at h
      · rw [if_neg hw] at h
        simp at h
        simp [h]
    · rw [if_neg ht] at h
      rcases List.mem_cons.mp h with h1 | h1
      · simp [h1]
      · exact List.mem_cons.mpr (Or.inr (ih h1))

theorem mem_pyStrip (c : Char) (s : List Char) (h : c ∈ pyStrip s) : c ∈ s :=
  mem_lstrip c s (mem_rstripF c (lstrip s) h)

theorem pyStrip_relabel (lab : List Char) (d : Char) (lt : List Char)
    (hlab : lab = d :: lt) (hd : isPyWs d = false) (hrl : rstripF lab = lab)
    (s : List Char) (hs : rstripF s = s) :
    pyStrip (lab ++ ' ' :: s) = if s = [] then lab else lab ++ ' ' :: s := by
  rw [pyStrip]
  have hls : lstrip (lab ++ ' ' :: s) = lab ++ ' ' :: s := by
    rw [hlab, List.cons_append]
    exact lstrip_cons_of_not_ws d (lt ++ ' ' :: s) hd
  rw [hls, rstripF_append_gen]
  by_cases h0 : s = []
  · subst h0
    have h1 : rstripF [' '] = [] := by
      rw [rstripF, if_pos (show rstripF [] = [] from rfl),
        if_pos (show isPyWs ' ' = true from rfl)]
    simp [h1, hrl]
  · have h2 : rstripF (' ' :: s) = ' ' :: s := by
      rw [rstripF, hs, if_neg h0]
    rw [h2, if_neg (show ¬(' ' :: s = []) by simp), if_neg h0]

theorem splitOnNl_ne_nil (s : List Char) : splitOnNl s ≠ [] := by
  induction s with
  | nil => simp [splitOnNl]
  | cons c t ih =>
    rw [splitOnNl]
    split_ifs <;> simp

theorem splitOnNl_append_nl (x y : List Char) :
    splitOnNl (x ++ '\n' :: y) = splitOnNl x ++ splitOnNl y := by
  induction x with
  | nil => simp [splitOnNl]
  | cons c t ih =>
    by_cases hc : c = '\n'
    · subst hc
      simp [splitOnNl, ih]
    · obtain ⟨hd, tl, hx⟩ := List.exists_cons_of_ne_nil (splitOnNl_ne_nil t)
      simp [splitOnNl, hc, ih, hx]

theorem splitOnNl_no_nl : ∀ s : List Char, '\n' ∉ s → splitOnNl s = [s] := by
  intro s
  induction s with
  | nil =>
    intro _
    rfl
  | cons c t ih =>
    intro h
    have hc : c ≠ '\n' := by
      intro hc
      exact h (by simp [hc])
    rw [splitOnNl, if_neg hc, ih (fun hm => h (List.mem_cons.mpr (Or.inr hm)))]
    simp

theorem mem_splitOnNl_no_nl : ∀ (s : List Char) (l : List Char),
    l ∈ splitOnNl s → '\n' ∉ l := by
  intro s
  induction s with
  | nil =>
    intro l hl
    simp [splitOnNl] at hl
    simp [hl]
  | cons c t ih =>
    intro l hl
    by_cases hc : c = '\n'
    · subst hc
      rw [splitOnNl, if_pos rfl] at hl
      rcases List.mem_cons.mp hl with rfl | h1
      · simp
      · exact ih l h1
    · rw [splitOnNl, if_neg hc] at hl
      obtain ⟨hd, tl, hx⟩ := List.exists_cons_of_ne_nil (splitOnNl_ne_nil t)
      rw [hx] at hl
      simp only [List.headI_cons, List.tail_cons] at hl
      rcases List.mem_cons.mp hl with rfl | h1
      · intro hmem
        rcases List.mem_cons.mp hmem with h2 | h2
        · exact hc h2.symm
        · exact ih hd (by rw [hx]; exact List.mem_cons.mpr (Or.inl rfl)) h2
      · exact ih l (by rw [hx]; exact List.mem_cons.mpr (Or.inr h1))

theorem splitOnNl_append_last (c : Char) (hc : c ≠ '\n') :
    ∀ a : List Char, splitOnNl (a ++ [c]) = appendLast [c] (splitOnNl a) := by
  intro a
  induction a with
  | nil => simp [splitOnNl, hc, appendLast]
  | cons d t ih =>
    by_cases hd : d = '\n'
    · subst hd
      rw [List.cons_append, splitOnNl, if_pos rfl, ih, splitOnNl, if_pos rfl,
        appendLast, if_neg (splitOnNl_ne_nil t)]
    · rw [List.cons_append, splitOnNl, if_neg hd, ih, splitOnNl, if_neg hd]
      obtain ⟨hd2, tl, hx⟩ := List.exists_cons_of_ne_nil (splitOnNl_ne_nil t)
      rw [hx]
      by_cases ht : tl = []
      · subst ht
        simp [appendLast]
      · simp [appendLast, ht]

theorem parseLines_append (a b : List (List Char)) :
    parseLines (a ++ b) =
      ((parseLines a).1 ++ (parseLines b).1, (parseLines a).2 ++ (parseLines b).2) := by
  induction a with
  | nil => simp [parseLines]
  | cons line rest ih =>
    simp only [List.cons_append, parseLines]
    split_ifs <;> simp [ih]

theorem parseLines_congr : ∀ ls1 ls2 : List (List Char),
    ls1.map pyStrip = ls2.map pyStrip → parseLines ls1 = parseLines ls2 := by
  intro ls1
  induction ls1 with
  | nil =>
    intro ls2 h
    cases ls2 with
    | nil => rfl
    | cons l t => simp at h
  | cons l1 t1 ih =>
    intro ls2 h
    cases ls2 with
    | nil => simp at h
    | cons l2 t2 =>
      simp only [List.map_cons, List.cons.injEq] at h
      simp only [parseLines, h.1, ih t2 h.2]

theorem parseLines_appendLast_ws (c : Char) (hw : isPyWs c = true) :
    ∀ ls, parseLines (appendLast [c] ls) = parseLines ls := by
  intro ls
  induction ls with
  | nil =>
    have h1 : pyStrip [c] = [] := by
      simp [pyStrip, lstrip, List.dropWhile_cons, hw, rstripF]
    simp [appendLast, parseLines, h1, funcLabel, nonFuncLabel, startsWithL]
  | cons l rest ih =>
    by_cases hr : rest = []
    · subst hr
      apply parseLines_congr
      simp [appendLast, pyStrip_append_ws c l hw]
    · rw [appendLast, if_neg hr]
      simp only [parseLines, ih]

theorem parseLines_split_ws_single (c : Char) (hw : isPyWs c = true) (a : List Char) :
    parseLines (splitOnNl (a ++ [c])) = parseLines (splitOnNl a) := by
  by_cases hc : c = '\n'
  · subst hc
    rw [show a ++ ['\n'] = a ++ '\n' :: [] from rfl, splitOnNl_append_nl,
      parseLines_append]
    have h0 : parseLines (splitOnNl []) = ([], []) := rfl
    rw [h0]
    simp
  · rw [splitOnNl_append_last c hc a, parseLines_appendLast_ws c hw]

theorem parseLines_split_all_ws :
    ∀ y : List Char, (∀ d ∈ y, isPyWs d = true) → ∀ a,
      parseLines (splitOnNl (a ++ y)) = parseLines (splitOnNl a) := by
  intro y
  induction y with
  | nil =>
    intro _ a
    rw [List.append_nil]
  | cons d t ih =>
    intro h a
    rw [show a ++ d :: t = (a ++ [d]) ++ t by simp,
      ih (fun x hx => h x (List.mem_cons.mpr (Or.inr hx))) (a ++ [d])]
    exact parseLines_split_ws_single d (h d (List.mem_cons.mpr (Or.inl rfl))) a

theorem parseLines_split_rstripF :
    ∀ x a : List Char,
      parseLines (splitOnNl (a ++ rstripF x)) = parseLines (splitOnNl (a ++ x)) := by
  intro x
  induction x with
  | nil =>
    intro a
    rfl
  | cons c y ih =>
    intro a
    rw [rstripF]
    by_cases hy : rstripF y = []
    · rw [if_pos hy]
      have hall : ∀ d ∈ y, isPyWs d = true := rstripF_eq_nil_all_ws y hy
      cases hw : isPyWs c
      · rw [if_neg (show ¬(false = true) by simp),
          show a ++ c :: y = (a ++ [c]) ++ y by simp,
          parseLines_split_all_ws y hall (a ++ [c])]
      · rw [if_pos rfl, List.append_nil,
          parseLines_split_all_ws (c :: y)
            (by
              intro d hd
              rcases List.mem_cons.mp hd with rfl | h2
              · exact hw
              · exact hall d h2) a]
    · rw [if_neg hy,
        show a ++ c :: rstripF y = (a ++ [c]) ++ rstripF y by simp,
        ih (a ++ [c]),
        show (a ++ [c]) ++ y = a ++ c :: y by simp]

theorem parseLines_split_lstrip :
    ∀ x : List Char, parseLines (splitOnNl (lstrip x)) = parseLines (splitOnNl x) := by
  intro x
  induction x with
  | nil => rfl
  | cons c y ih =>
    cases hw : isPyWs c
    · rw [lstrip_cons_of_not_ws c y hw]
    · rw [lstrip_cons_of_ws c y hw, ih]
      by_cases hc : c = '\n'
      · subst hc
        rw [splitOnNl, if_pos rfl]
        rfl
      · rw [splitOnNl, if_neg hc]
        obtain ⟨hd, tl, hx⟩ := List.exists_cons_of_ne_nil (splitOnNl_ne_nil y)
        rw [hx]
        simp only [List.headI_cons, List.tail_cons]
        apply parseLines_congr
        simp [pyStrip_cons_ws c hd hw]

theorem parse_noStrip (raw : List Char) :
    parse_requirements raw = parseLines (splitOnNl raw) := by
  rw [parse_requirements, pyStrip]
  have h1 := parseLines_split_rstripF (lstrip raw) []
  rw [List.nil_append, List.nil_append] at h1
  rw [h1, parseLines_split_lstrip raw]

theorem parseLines_char : ∀ ls : List (List Char),
    parseLines ls =
      (((ls.map pyStrip).filter (fun l => startsWithL funcLabel l)).map
          (fun l => pyStrip (replaceAll funcLabel l)),
        ((ls.map pyStrip).filter (fun l => startsWithL nonFuncLabel l)).map
          (fun l => pyStrip (replaceAll nonFuncLabel l))) := by
  intro ls
  induction ls with
  | nil => rfl
  | cons line rest ih =>
    simp only [List.map_cons, List.filter_cons]
    by_cases hf : startsWithL funcLabel (pyStrip line) = true
    · have hn := not_nonFunc_of_func _ hf
      simp [parseLines, ih, hf, hn]
    · by_cases hn : startsWithL nonFuncLabel (pyStrip line) = true
      · simp [parseLines, ih, hf, hn]
      · simp [parseLines, ih, hf, hn]

theorem parse_fst_eq (raw : List Char) :
    (parse_requirements raw).1 =
      (funcLabeledLines raw).map (fun l => pyStrip (replaceAll funcLabel l)) := by
  rw [parse_requirements, parseLines_char, funcLabeledLines, trimmedLines]

theorem parse_snd_eq (raw : List Char) :
    (parse_requirements raw).2 =
      (nonFuncLabeledLines raw).map (fun l => pyStrip (replaceAll nonFuncLabel l)) := by
  rw [parse_requirements, parseLines_char, nonFuncLabeledLines, trimmedLines]

/-- Claim C10 (counterpart): any statement containing the two-character
sequence `ms` anywhere — even inside another word such as `systems` — is
counted as having a measurable value, digits or units notwithstanding. -/
theorem c10_ms_substring_measurable (req : List Char)
    (h : containsSub "ms".data req = true) : contains_measurable_value req = true := by
  have h2 : containsSub "ms".data (toLowerPy req) = true := by
    have hm := containsSub_map Char.toLower "ms".data req h
    have hms : (("ms".data).map Char.toLower) = "ms".data := by decide
    rw [hms] at hm
    exact hm
  simp [contains_measurable_value, h2]

/-- Witness for C10 at the concrete statement `systems`, which has no digit,
percent sign or unit, only the incidental `ms` inside the word. -/
theorem c10_ms_substring_measurable_witness :
    containsSub "ms".data "systems".data = true ∧
      contains_measurable_value "systems".data = true :=
  ⟨by decide, c10_ms_substring_measurable ("systems".data) (by decide)⟩

/-- Counterexample to claim C5 as stated: on the line
`[Functional] a [Functional] b` the parser appends `a  b` — Python
`str.replace` removes every occurrence of the label, not only the leading
one — instead of keeping the later label occurrence verbatim. -/
theorem c5_counterexample :
    (parse_requirements ("[Functional] a [Functional] b".data)).1 = ["a  b".data] ∧
      "a  b".data ≠ "a [Functional] b".data := by
  constructor
  · decide
  · decide

/-- Claim C5 as amended: for every labelled line, the statement appended to
the bucket is the trimmed line with EVERY occurrence of its label string
removed (`str.replace` removes all occurrences), then trimmed again; this
characterises both buckets of `parse_requirements` line by line. -/
theorem c5_amended_replace_all_occurrences (raw : List Char) :
    parse_requirements raw =
      ((funcLabeledLines raw).map (fun l => pyStrip (replaceAll funcLabel l)),
        (nonFuncLabeledLines raw).map (fun l => pyStrip (replaceAll nonFuncLabel l))) :=
  Prod.ext (parse_fst_eq raw) (parse_snd_eq raw)

/-- Counterexample to claim C6 as stated: the line consisting solely of the
label `[Functional]` puts the empty statement into the functional bucket. -/
theorem c6_counterexample :
    (parse_requirements ("[Functional]".data)).1.all (fun s => !s.isEmpty) = false ∧
      (parse_requirements ("[Functional]".data)).1 = [([] : List Char)] := by
  constructor
  · decide
  · decide

/-- Claim C6 as amended: the buckets need not contain only non-empty
strings — a label-only line contributes the empty statement — but every
extracted statement is fully trimmed (stripping it again changes nothing). -/
theorem c6_amended_statements_stripped (raw : List Char) :
    ((parse_requirements raw).1 ++ (parse_requirements raw).2).all
      (fun s => pyStrip s == s) = true := by
  rw [parse_fst_eq, parse_snd_eq]
  simp [List.all_append, List.all_map, List.all_eq_true, Function.comp, pyStrip_idem]

/-- Claim C9: the Functional Requirements column of the matrix depends only
on the `[Functional]`-labelled lines of the input, and the Non-Functional
column only on the `[Non-Functional]`-labelled lines. -/
theorem c9_column_noninterference (raw1 raw2 : List Char) :
    (funcLabeledLines raw1 = funcLabeledLines raw2 →
      (generate_validation_matrix raw1).functionalCol =
        (generate_validation_matrix raw2).functionalCol) ∧
    (nonFuncLabeledLines raw1 = nonFuncLabeledLines raw2 →
      (generate_validation_matrix raw1).nonFunctionalCol =
        (generate_validation_matrix raw2).nonFunctionalCol) := by
  constructor
  · intro h
    have h1 : (parse_requirements raw1).1 = (parse_requirements raw2).1 := by
      rw [parse_fst_eq, parse_fst_eq, h]
    show [evaluate_completeness (parse_requirements raw1).1 false,
        evaluate_correctness (parse_requirements raw1).1,
        evaluate_clarity (parse_requirements raw1).1] =
      [evaluate_completeness (parse_requirements raw2).1 false,
        evaluate_correctness (parse_requirements raw2).1,
        evaluate_clarity (parse_requirements raw2).1]
    rw [h1]
  · intro h
    have h2 : (parse_requirements raw1).2 = (parse_requirements raw2).2 := by
      rw [parse_snd_eq, parse_snd_eq, h]
    show [evaluate_completeness (parse_requirements raw1).2 true,
        evaluate_correctness (parse_requirements raw1).2,
        evaluate_clarity (parse_requirements raw1).2] =
      [evaluate_completeness (parse_requirements raw2).2 true,
        evaluate_correctness (parse_requirements raw2).2,
        evaluate_clarity (parse_requirements raw2).2]
    rw [h2]

/-- Counterexample to claim C8 as stated: the statement `feast` contains the
text `feast`, but `fast` is not a contiguous substring of `feast`, so
`contains_ambiguity` returns `false` on it. -/
theorem c8_counterexample :
    containsSub "feast".data "feast".data = true ∧
      contains_ambiguity "feast".data = false := by
  constructor <;> decide

/-- Claim C8 as amended: the predicates use naive case-insensitive substring
containment, so any statement containing `breakfast` is flagged as ambiguous
by the vocabulary entry `fast` (a statement containing `feast`, however,
need not be flagged, since `fast` is not a substring of `feast`). -/
theorem c8_amended_substring_matching (req : List Char)
    (h : containsSub "breakfast".data req = true) : contains_ambiguity req = true := by
  have hf : containsSub "fast".data "breakfast".data = true := by decide
  have h1 : containsSub "fast".data req = true := containsSub_trans _ _ _ hf h
  have h2 : containsSub "fast".data (toLowerPy req) = true := by
    have hm := containsSub_map Char.toLower "fast".data req h1
    have hfast : (("fast".data).map Char.toLower) = "fast".data := by decide
    rw [hfast] at hm
    exact hm
  simp [contains_ambiguity, AMBIGUOUS_WORDS, h2]

/-- Witness for C8 at the concrete statement `serve breakfast`. -/
theorem c8_amended_substring_matching_witness :
    containsSub "breakfast".data "serve breakfast".data = true ∧
      contains_ambiguity "serve breakfast".data = true :=
  ⟨by decide, c8_amended_substring_matching ("serve breakfast".data) (by decide)⟩

theorem funcLabel_data : funcLabel = "[Functional]".data := rfl

theorem nonFuncLabel_data : nonFuncLabel = "[Non-Functional]".data := rfl

theorem percentageOf_eq_correctnessPct (requirements : List (List Char)) :
    percentageOf requirements = correctnessPct requirements := by
  unfold percentageOf correctnessPct
  ring

theorem correctness_eq_spec (requirements : List (List Char)) :
    evaluate_correctness requirements = correctnessSpec requirements := by
  unfold evaluate_correctness correctnessSpec
  rw [percentageOf_eq_correctnessPct]

theorem correctnessPct_nonneg (requirements : List (List Char)) :
    0 ≤ correctnessPct requirements := by
  unfold correctnessPct
  positivity

theorem correctnessSpec_excellent_iff (requirements : List (List Char)) :
    correctnessSpec requirements = "Excellent" ↔
      requirements.length ≠ 0 ∧ correctnessPct requirements = 0 := by
  have hnn := correctnessPct_nonneg requirements
  unfold correctnessSpec
  split_ifs with h0 h1 h2 h3 h4
  · exact iff_of_false (by decide) (fun h => h.1 h0)
  · refine iff_of_false (by decide) (fun h => ?_)
    rw [h.2] at h1
    exact absurd h1 (by norm_num)
  · refine iff_of_false (by decide) (fun h => ?_)
    rw [h.2] at h2
    exact absurd h2.1 (by norm_num)
  · refine iff_of_false (by decide) (fun h => ?_)
    rw [h.2] at h3
    exact absurd h3.1 (by norm_num)
  · refine iff_of_false (by decide) (fun h => ?_)
    rw [h.2] at h4
    exact absurd h4.2 (by norm_num)
  · refine iff_of_true rfl ⟨h0, ?_⟩
    by_contra hne
    have hpos : 0 < correctnessPct requirements := lt_of_le_of_ne hnn (Ne.symm hne)
    have h10 : ¬ correctnessPct requirements < 10 := fun hlt => h4 ⟨hlt, hpos⟩
    have h30 : ¬ correctnessPct requirements < 30 :=
      fun hlt => h3 ⟨le_of_not_lt h10, hlt⟩
    exact h2 ⟨le_of_not_lt h30, le_of_not_lt h1⟩

/-- Claim C2: `evaluate_correctness` returns `Poor` on an empty bucket, and
otherwise maps the exact percentage `p = 100 * (ambiguous count) / (bucket
length)` by `p>50 → Poor`, `30≤p≤50 → Fair` (so `p = 50` is `Fair`),
`10≤p<30 → Sufficient`, `0<p<10 → Good`, and returns `Excellent` exactly
when the bucket is non-empty and `p = 0`. -/
theorem c2_correctness_thresholds (requirements : List (List Char)) :
    evaluate_correctness requirements = correctnessSpec requirements ∧
      (evaluate_correctness requirements = "Excellent" ↔
        requirements.length ≠ 0 ∧ correctnessPct requirements = 0) := by
  refine ⟨correctness_eq_spec requirements, ?_⟩
  rw [correctness_eq_spec requirements]
  exact correctnessSpec_excellent_iff requirements

theorem countMissing_eq_missingSpec (requirements : List (List Char)) (is_nfr : Bool) :
    countMissing requirements is_nfr = missingSpec requirements is_nfr := by
  induction requirements with
  | nil => rfl
  | cons req rest ih =>
    simp only [countMissing, missingSpec, List.map_cons, List.sum_cons] at ih ⊢
    cases hca : contains_action req <;> cases is_nfr <;>
      cases hcm : contains_measurable_value req <;> simp_all <;> omega

theorem countMissing_le (requirements : List (List Char)) (is_nfr : Bool) :
    countMissing requirements is_nfr ≤
      requirements.length * (if is_nfr = true then 2 else 1) := by
  induction requirements with
  | nil => simp [countMissing]
  | cons req rest ih =>
    simp only [countMissing, List.length_cons]
    cases hca : contains_action req <;> cases is_nfr <;>
      cases hcm : contains_measurable_value req <;> simp_all <;> omega

/-- Claim C3: `evaluate_completeness` counts `missing` as the sum over
statements of one for a missing action verb plus (for `is_nfr` buckets) one
more for a missing measurable value — so each statement contributes at most
2 when `is_nfr` and at most 1 otherwise — and maps the total by
`missing>3 → Poor, 2≤missing≤3 → Fair, missing=1 → Sufficient,
missing=0 → Good`. -/
theorem c3_completeness_count_and_thresholds
    (requirements : List (List Char)) (is_nfr : Bool) :
    countMissing requirements is_nfr = missingSpec requirements is_nfr ∧
      missingSpec requirements is_nfr ≤
        requirements.length * (if is_nfr = true then 2 else 1) ∧
      evaluate_completeness requirements is_nfr = completenessSpec requirements is_nfr := by
  refine ⟨countMissing_eq_missingSpec requirements is_nfr, ?_, ?_⟩
  · rw [← countMissing_eq_missingSpec]
    exact countMissing_le requirements is_nfr
  · unfold evaluate_completeness completenessSpec
    rw [countMissing_eq_missingSpec]
    split_ifs <;> first | rfl | omega

/-- Claim C4: the trailing `Excellent` branches of `evaluate_completeness`
and `evaluate_clarity` are unreachable: the counters are natural numbers and
the preceding range checks are exhaustive, so neither scorer ever returns
`Excellent`. -/
theorem c4_no_excellent_in_completeness_and_clarity
    (requirements : List (List Char)) (is_nfr : Bool) :
    evaluate_completeness requirements is_nfr ≠ "Excellent" ∧
      evaluate_clarity requirements ≠ "Excellent" := by
  constructor
  · unfold evaluate_completeness
    split_ifs <;> first | decide | omega
  · unfold evaluate_clarity
    split_ifs <;> first | decide | omega

theorem completeness_mem_verdicts (requirements : List (List Char)) (is_nfr : Bool) :
    evaluate_completeness requirements is_nfr ∈ verdicts := by
  unfold evaluate_completeness
  split_ifs <;> decide

theorem correctness_mem_verdicts (requirements : List (List Char)) :
    evaluate_correctness requirements ∈ verdicts := by
  unfold evaluate_correctness
  split_ifs <;> decide

theorem clarity_mem_verdicts (requirements : List (List Char)) :
    evaluate_clarity requirements ∈ verdicts := by
  unfold evaluate_clarity
  split_ifs <;> decide

/-- Claim C1: for every input string `generate_validation_matrix` (a total
function, so it terminates without raising) returns the table with the three
criterion rows `Completeness, Correctness, Clarity` and two category columns
of three cells each, every cell drawn from the verdict set
`Poor, Fair, Sufficient, Good, Excellent`. -/
theorem c1_matrix_shape_and_verdicts (raw : List Char) :
    (generate_validation_matrix raw).criteria = ["Completeness", "Correctness", "Clarity"] ∧
      (generate_validation_matrix raw).functionalCol.length = 3 ∧
      (generate_validation_matrix raw).nonFunctionalCol.length = 3 ∧
      ((generate_validation_matrix raw).functionalCol ++
          (generate_validation_matrix raw).nonFunctionalCol).all
        (fun v => verdicts.contains v) = true := by
  refine ⟨rfl, rfl, rfl, ?_⟩
  unfold generate_validation_matrix
  simp [completeness_mem_verdicts, correctness_mem_verdicts, clarity_mem_verdicts]

theorem parse_statements_stripped (raw : List Char) :
    (∀ s ∈ (parse_requirements raw).1, pyStrip s = s ∧ ('\n' : Char) ∉ s) ∧
      (∀ s ∈ (parse_requirements raw).2, pyStrip s = s ∧ ('\n' : Char) ∉ s) := by
  constructor
  · intro s hs
    rw [parse_fst_eq] at hs
    obtain ⟨l, hl, rfl⟩ := List.mem_map.mp hs
    refine ⟨pyStrip_idem _, ?_⟩
    intro hmem
    have h1 := mem_pyStrip _ _ hmem
    have h2 := mem_of_mem_replaceAll _ _ _ h1
    rw [funcLabeledLines, trimmedLines] at hl
    have h3 := List.mem_of_mem_filter hl
    obtain ⟨l0, hl0, rfl⟩ := List.mem_map.mp h3
    exact mem_splitOnNl_no_nl _ _ hl0 (mem_pyStrip _ _ h2)
  · intro s hs
    rw [parse_snd_eq] at hs
    obtain ⟨l, hl, rfl⟩ := List.mem_map.mp hs
    refine ⟨pyStrip_idem _, ?_⟩
    intro hmem
    have h1 := mem_pyStrip _ _ hmem
    have h2 := mem_of_mem_replaceAll _ _ _ h1
    rw [nonFuncLabeledLines, trimmedLines] at hl
    have h3 := List.mem_of_mem_filter hl
    obtain ⟨l0, hl0, rfl⟩ := List.mem_map.mp h3
    exact mem_splitOnNl_no_nl _ _ hl0 (mem_pyStrip _ _ h2)

theorem relabelF_no_nl (s : List Char) (h : ('\n' : Char) ∉ s) :
    ('\n' : Char) ∉ relabelF s := by
  intro hmem
  rw [relabelF] at hmem
  rcases List.mem_append.mp hmem with h1 | h1
  · exact absurd h1 (by decide)
  · rcases List.mem_cons.mp h1 with h2 | h2
    · exact absurd h2 (by decide)
    · exact h h2

theorem relabelN_no_nl (s : List Char) (h : ('\n' : Char) ∉ s) :
    ('\n' : Char) ∉ relabelN s := by
  intro hmem
  rw [relabelN] at hmem
  rcases List.mem_append.mp hmem with h1 | h1
  · exact absurd h1 (by decide)
  · rcases List.mem_cons.mp h1 with h2 | h2
    · exact absurd h2 (by decide)
    · exact h h2

theorem splitOnNl_joinNl : ∀ ls : List (List Char), ls ≠ [] →
    (∀ l ∈ ls, ('\n' : Char) ∉ l) → splitOnNl (joinNl ls) = ls := by
  intro ls
  induction ls with
  | nil =>
    intro h _
    cases h rfl
  | cons l rest ih =>
    intro _ h
    cases rest with
    | nil => exact splitOnNl_no_nl l (h l (by simp))
    | cons l2 t =>
      rw [show joinNl (l :: l2 :: t) = l ++ '\n' :: joinNl (l2 :: t) from rfl,
        splitOnNl_append_nl, splitOnNl_no_nl l (h l (by simp)),
        ih (by simp) (fun x hx => h x (List.mem_cons.mpr (Or.inr hx)))]
      rfl

theorem pyStrip_relabelF (s : List Char) (hrs : rstripF s = s) :
    pyStrip (relabelF s) = if s = [] then funcLabel else funcLabel ++ ' ' :: s := by
  rw [relabelF]
  exact pyStrip_relabel funcLabel '['
    ['F', 'u', 'n', 'c', 't', 'i', 'o', 'n', 'a', 'l', ']'] rfl rfl (by decide) s hrs

theorem pyStrip_relabelN (s : List Char) (hrs : rstripF s = s) :
    pyStrip (relabelN s) = if s = [] then nonFuncLabel else nonFuncLabel ++ ' ' :: s := by
  rw [relabelN]
  exact pyStrip_relabel nonFuncLabel '['
    ['N', 'o', 'n', '-', 'F', 'u', 'n', 'c', 't', 'i', 'o', 'n', 'a', 'l', ']']
    rfl rfl (by decide) s hrs

theorem parseLines_relabelF :
    ∀ f : List (List Char), (∀ s ∈ f, pyStrip s = s) →
      (∀ s ∈ f, containsSub funcLabel s = false) →
      parseLines (f.map relabelF) = (f, []) := by
  intro f
  induction f with
  | nil =>
    intro _ _
    rfl
  | cons s t ih =>
    intro h1 h2
    have hs1 : pyStrip s = s := h1 s (by simp)
    have hs2 : containsSub funcLabel s = false := h2 s (by simp)
    have hrs : rstripF s = s := (pyStrip_eq_self_parts s hs1).2
    have iht := ih (fun x hx => h1 x (List.mem_cons.mpr (Or.inr hx)))
      (fun x hx => h2 x (List.mem_cons.mpr (Or.inr hx)))
    by_cases h0 : s = []
    · subst h0
      have hstrip : pyStrip (relabelF []) = funcLabel := by
        rw [pyStrip_relabelF [] rfl]
        simp
      simp only [List.map_cons, parseLines, hstrip]
      rw [if_pos (show startsWithL funcLabel funcLabel = true by decide),
        replaceAll_self funcLabel (by decide), iht]
      rfl
    · have hstrip : pyStrip (relabelF s) = funcLabel ++ ' ' :: s := by
        rw [pyStrip_relabelF s hrs, if_neg h0]
      have hnc : containsSub funcLabel (' ' :: s) = false := by
        rw [containsSub, show startsWithL funcLabel (' ' :: s) = false from rfl, hs2]
        rfl
      simp only [List.map_cons, parseLines, hstrip]
      rw [if_pos (startsWithL_append_self funcLabel (' ' :: s)),
        replaceAll_prepend funcLabel (by decide) (' ' :: s),
        replaceAll_not_contains funcLabel (by decide) (' ' :: s) hnc,
        pyStrip_cons_ws ' ' s (by decide), hs1, iht]

theorem parseLines_relabelN :
    ∀ n : List (List Char), (∀ s ∈ n, pyStrip s = s) →
      (∀ s ∈ n, containsSub nonFuncLabel s = false) →
      parseLines (n.map relabelN) = ([], n) := by
  intro n
  induction n with
  | nil =>
    intro _ _
    rfl
  | cons s t ih =>
    intro h1 h2
    have hs1 : pyStrip s = s := h1 s (by simp)
    have hs2 : containsSub nonFuncLabel s = false := h2 s (by simp)
    have hrs : rstripF s = s := (pyStrip_eq_self_parts s hs1).2
    have iht := ih (fun x hx => h1 x (List.mem_cons.mpr (Or.inr hx)))
      (fun x hx => h2 x (List.mem_cons.mpr (Or.inr hx)))
    by_cases h0 : s = []
    · subst h0
      have hstrip : pyStrip (relabelN []) = nonFuncLabel := by
        rw [pyStrip_relabelN [] rfl]
        simp
      simp only [List.map_cons, parseLines, hstrip]
      rw [if_neg (show ¬(startsWithL funcLabel nonFuncLabel = true) by decide),
        if_pos (show startsWithL nonFuncLabel nonFuncLabel = true by decide),
        replaceAll_self nonFuncLabel (by decide), iht]
      rfl
    · have hstrip : pyStrip (relabelN s) = nonFuncLabel ++ ' ' :: s := by
        rw [pyStrip_relabelN s hrs, if_neg h0]
      have hnc : containsSub nonFuncLabel (' ' :: s) = false := by
        rw [containsSub, show startsWithL nonFuncLabel (' ' :: s) = false from rfl, hs2]
        rfl
      have hnf : startsWithL funcLabel (nonFuncLabel ++ ' ' :: s) = false :=
        not_func_of_nonFunc _ (startsWithL_append_self nonFuncLabel (' ' :: s))
      simp only [List.map_cons, parseLines, hstrip]
      rw [if_neg (by simp [hnf]),
        if_pos (startsWithL_append_self nonFuncLabel (' ' :: s)),
        replaceAll_prepend nonFuncLabel (by decide) (' ' :: s),
        replaceAll_not_contains nonFuncLabel (by decide) (' ' :: s) hnc,
        pyStrip_cons_ws ' ' s (by decide), hs1, iht]

theorem parse_roundTrip_core (f n : List (List Char))
    (hf1 : ∀ s ∈ f, pyStrip s = s) (hfn : ∀ s ∈ f, ('\n' : Char) ∉ s)
    (hf2 : ∀ s ∈ f, containsSub funcLabel s = false)
    (hn1 : ∀ s ∈ n, pyStrip s = s) (hnn : ∀ s ∈ n, ('\n' : Char) ∉ s)
    (hn2 : ∀ s ∈ n, containsSub nonFuncLabel s = false) :
    parse_requirements (roundTripInput f n) = (f, n) := by
  rw [parse_noStrip, roundTripInput]
  by_cases hL : f.map relabelF ++ n.map relabelN = []
  · obtain ⟨ha, hb⟩ := List.append_eq_nil.mp hL
    rw [List.map_eq_nil_iff.mp ha, List.map_eq_nil_iff.mp hb]
    rfl
  · rw [splitOnNl_joinNl _ hL ?hnl]
    case hnl =>
      intro l hl
      rcases List.mem_append.mp hl with h1 | h1
      · obtain ⟨s, hs, rfl⟩ := List.mem_map.mp h1
        exact relabelF_no_nl s (hfn s hs)
      · obtain ⟨s, hs, rfl⟩ := List.mem_map.mp h1
        exact relabelN_no_nl s (hnn s hs)
    rw [parseLines_append, parseLines_relabelF f hf1 hf2,
      parseLines_relabelN n hn1 hn2]
    simp

/-- Counterexample to claim C7 as stated: `str.replace` can splice a new
label occurrence together out of the pieces around a removed inner
occurrence, so an extracted statement can itself start with the label; on
such a bucket the round trip collapses the statement. -/
theorem c7_counterexample :
    (parse_requirements ("[Functional][Functio[Functional]nal] x".data)).1 =
        ["[Functional] x".data] ∧
      parse_requirements
          (roundTripInput
            (parse_requirements ("[Functional][Functio[Functional]nal] x".data)).1
            (parse_requirements ("[Functional][Functio[Functional]nal] x".data)).2) ≠
        parse_requirements ("[Functional][Functio[Functional]nal] x".data) := by
  constructor
  · decide
  · decide

/-- Claim C7 as amended: the round trip holds for every pair of buckets
produced by `parse_requirements` whose functional statements do not contain
the text `[Functional]` and whose non-functional statements do not contain
the text `[Non-Functional]`: re-labelling each extracted statement with its
original tag, joining the lines with newlines and parsing again reproduces
exactly the same two buckets. -/
theorem c7_amended_round_trip (raw : List Char)
    (hf : ∀ s ∈ (parse_requirements raw).1, containsSub funcLabel s = false)
    (hn : ∀ s ∈ (parse_requirements raw).2, containsSub nonFuncLabel s = false) :
    parse_requirements
        (roundTripInput (parse_requirements raw).1 (parse_requirements raw).2) =
      parse_requirements raw := by
  have hp := parse_statements_stripped raw
  rw [parse_roundTrip_core (parse_requirements raw).1 (parse_requirements raw).2
    (fun s hs => (hp.1 s hs).1) (fun s hs => (hp.1 s hs).2) hf
    (fun s hs => (hp.2 s hs).1) (fun s hs => (hp.2 s hs).2) hn]

/-- Witness for C7 at a concrete two-line input. -/
theorem c7_amended_round_trip_witness :
    (∀ s ∈ (parse_requirements ("[Functional] alpha\n[Non-Functional] beta".data)).1,
        containsSub funcLabel s = false) ∧
      (∀ s ∈ (parse_requirements ("[Functional] alpha\n[Non-Functional] beta".data)).2,
        containsSub nonFuncLabel s = false) ∧
      parse_requirements
          (roundTripInput
            (parse_requirements ("[Functional] alpha\n[Non-Functional] beta".data)).1
            (parse_requirements ("[Functional] alpha\n[Non-Functional] beta".data)).2) =
        parse_requirements ("[Functional] alpha\n[Non-Functional] beta".data) :=
  ⟨by decide, by decide,
    c7_amended_round_trip ("[Functional] alpha\n[Non-Functional] beta".data)
      (by decide) (by decide)⟩
